import Mathlib

/-!
A verification development for the state-vector core in src/state_vec.py of the
mbqc repository.  The Python code stores a rank-n complex tensor (one axis of
size 2 per live qubit) together with a list node_index mapping qubit labels to
tensor axes.  We embed states as functions from bit assignments (Fin n → Fin 2)
to amplitudes, and embed each operation of the source file as a Lean function.

The float amplitudes of the source are modelled exactly: every amplitude the
modelled operations produce lies in the field Q(sqrt 2) adjoined with i, which
we realise as pairs of pairs of rationals.  Numerical comparisons of the source
(np.isclose against zero) become exact comparisons with zero.
-/

namespace MBQC

/-- The real scalar field of the embedding: numbers of the form a + b * sqrt 2
with rational a and b, represented as the pair (a, b). -/
structure R2 where
  a : ℚ
  b : ℚ
deriving DecidableEq, Repr

namespace R2

theorem eqR2 {x y : R2} (ha : x.a = y.a) (hb : x.b = y.b) : x = y := by
  cases x; cases y; cases ha; cases hb; rfl

instance : Zero R2 := ⟨⟨0, 0⟩⟩
instance : One R2 := ⟨⟨1, 0⟩⟩
instance : Add R2 := ⟨fun x y => ⟨x.a + y.a, x.b + y.b⟩⟩
instance : Neg R2 := ⟨fun x => ⟨-x.a, -x.b⟩⟩
instance : Mul R2 := ⟨fun x y => ⟨x.a * y.a + 2 * (x.b * y.b), x.a * y.b + x.b * y.a⟩⟩

instance : CommRing R2 where
  add := (· + ·)
  zero := 0
  neg := (- ·)
  nsmul := nsmulRec
  zsmul := zsmulRec
  mul := (· * ·)
  one := 1
  add_assoc := fun ⟨a, b⟩ ⟨c, d⟩ ⟨e, f⟩ => by
    apply eqR2
    · show a + c + e = a + (c + e); ring
    · show b + d + f = b + (d + f); ring
  zero_add := fun ⟨a, b⟩ => by
    apply eqR2
    · show 0 + a = a; ring
    · show 0 + b = b; ring
  add_zero := fun ⟨a, b⟩ => by
    apply eqR2
    · show a + 0 = a; ring
    · show b + 0 = b; ring
  add_comm := fun ⟨a, b⟩ ⟨c, d⟩ => by
    apply eqR2
    · show a + c = c + a; ring
    · show b + d = d + b; ring
  left_distrib := fun ⟨a, b⟩ ⟨c, d⟩ ⟨e, f⟩ => by
    apply eqR2
    · show a * (c + e) + 2 * (b * (d + f)) = a * c + 2 * (b * d) + (a * e + 2 * (b * f)); ring
    · show a * (d + f) + b * (c + e) = a * d + b * c + (a * f + b * e); ring
  right_distrib := fun ⟨a, b⟩ ⟨c, d⟩ ⟨e, f⟩ => by
    apply eqR2
    · show (a + c) * e + 2 * ((b + d) * f) = a * e + 2 * (b * f) + (c * e + 2 * (d * f)); ring
    · show (a + c) * f + (b + d) * e = a * f + b * e + (c * f + d * e); ring
  zero_mul := fun ⟨a, b⟩ => by
    apply eqR2
    · show 0 * a + 2 * (0 * b) = 0; ring
    · show 0 * b + 0 * a = 0; ring
  mul_zero := fun ⟨a, b⟩ => by
    apply eqR2
    · show a * 0 + 2 * (b * 0) = 0; ring
    · show a * 0 + b * 0 = 0; ring
  mul_assoc := fun ⟨a, b⟩ ⟨c, d⟩ ⟨e, f⟩ => by
    apply eqR2
    · show (a * c + 2 * (b * d)) * e + 2 * ((a * d + b * c) * f)
        = a * (c * e + 2 * (d * f)) + 2 * (b * (c * f + d * e)); ring
    · show (a * c + 2 * (b * d)) * f + (a * d + b * c) * e
        = a * (c * f + d * e) + b * (c * e + 2 * (d * f)); ring
  one_mul := fun ⟨a, b⟩ => by
    apply eqR2
    · show 1 * a + 2 * (0 * b) = a; ring
    · show 1 * b + 0 * a = b; ring
  mul_one := fun ⟨a, b⟩ => by
    apply eqR2
    · show a * 1 + 2 * (b * 0) = a; ring
    · show a * 0 + b * 1 = b; ring
  neg_add_cancel := fun ⟨a, b⟩ => by
    apply eqR2
    · show -a + a = 0; ring
    · show -b + b = 0; ring
  mul_comm := fun ⟨a, b⟩ ⟨c, d⟩ => by
    apply eqR2
    · show a * c + 2 * (b * d) = c * a + 2 * (d * b); ring
    · show a * d + b * c = c * b + d * a; ring

@[simp] theorem add_a (x y : R2) : (x + y).a = x.a + y.a := rfl
@[simp] theorem add_b (x y : R2) : (x + y).b = x.b + y.b := rfl
@[simp] theorem mul_a (x y : R2) : (x * y).a = x.a * y.a + 2 * (x.b * y.b) := rfl
@[simp] theorem mul_b (x y : R2) : (x * y).b = x.a * y.b + x.b * y.a := rfl
@[simp] theorem neg_a (x : R2) : (-x).a = -x.a := rfl
@[simp] theorem neg_b (x : R2) : (-x).b = -x.b := rfl
@[simp] theorem zero_a : (0 : R2).a = 0 := rfl
@[simp] theorem zero_b : (0 : R2).b = 0 := rfl
@[simp] theorem one_a : (1 : R2).a = 1 := rfl
@[simp] theorem one_b : (1 : R2).b = 0 := rfl
@[simp] theorem sub_a (x y : R2) : (x - y).a = x.a - y.a := by
  rw [sub_eq_add_neg, sub_eq_add_neg]; simp
@[simp] theorem sub_b (x y : R2) : (x - y).b = x.b - y.b := by
  rw [sub_eq_add_neg, sub_eq_add_neg]; simp

/-- Embedding of a rational number as an element of the scalar field. -/
def ofRat (q : ℚ) : R2 := ⟨q, 0⟩

/-- Multiplicative inverse in Q(sqrt 2) (junk value 0 at 0). -/
def inv (x : R2) : R2 := ⟨x.a / (x.a ^ 2 - 2 * x.b ^ 2), -x.b / (x.a ^ 2 - 2 * x.b ^ 2)⟩

/-- The real value of an element of the field, used only to reason about the
embedding, never by the embedded operations themselves. -/
noncomputable def toReal (x : R2) : ℝ := (x.a : ℝ) + (x.b : ℝ) * Real.sqrt 2

theorem sq_ne_two (q : ℚ) : q ^ 2 ≠ 2 := by
  intro h
  have h2 : ((q : ℝ)) ^ 2 = 2 := by
    have := congrArg (fun r : ℚ => (r : ℝ)) h
    push_cast at this
    simpa using this
  have habs : Real.sqrt 2 = |(q : ℝ)| := by
    rw [← Real.sqrt_sq_eq_abs, h2]
  have : Irrational (Real.sqrt 2) := irrational_sqrt_two
  rw [habs] at this
  rcases abs_choice (q : ℝ) with hc | hc <;> rw [hc] at this
  · exact this ⟨q, rfl⟩
  · exact this ⟨-q, by push_cast; ring⟩

theorem discr_ne_zero {x : R2} (hx : x ≠ 0) : x.a ^ 2 - 2 * x.b ^ 2 ≠ 0 := by
  intro h
  apply hx
  have hb : x.b = 0 := by
    by_contra hb
    have : (x.a / x.b) ^ 2 = 2 := by
      field_simp
      nlinarith [h]
    exact sq_ne_two _ this
  apply eqR2
  · have : x.a ^ 2 = 0 := by rw [hb] at h; nlinarith [h]
    have := pow_eq_zero_iff (n := 2) (by norm_num) |>.mp this
    simpa using this
  · simpa using hb

theorem mul_inv_cancel2 {x : R2} (hx : x ≠ 0) : x * R2.inv x = 1 := by
  have hd := discr_ne_zero hx
  apply eqR2
  · show x.a * (x.a / (x.a ^ 2 - 2 * x.b ^ 2)) + 2 * (x.b * (-x.b / (x.a ^ 2 - 2 * x.b ^ 2))) = 1
    field_simp
    ring
  · show x.a * (-x.b / (x.a ^ 2 - 2 * x.b ^ 2)) + x.b * (x.a / (x.a ^ 2 - 2 * x.b ^ 2)) = 0
    field_simp
    ring

end R2

/-- Complex amplitudes over the scalar field: re + im * i.  This models the
np.complex128 amplitudes of the source exactly. -/
structure Amp where
  re : R2
  im : R2
deriving DecidableEq, Repr

namespace Amp

theorem eqAmp {x y : Amp} (hr : x.re = y.re) (hi : x.im = y.im) : x = y := by
  cases x; cases y; cases hr; cases hi; rfl

instance : Zero Amp := ⟨⟨0, 0⟩⟩
instance : One Amp := ⟨⟨1, 0⟩⟩
instance : Add Amp := ⟨fun x y => ⟨x.re + y.re, x.im + y.im⟩⟩
instance : Neg Amp := ⟨fun x => ⟨-x.re, -x.im⟩⟩
instance : Mul Amp := ⟨fun x y => ⟨x.re * y.re - x.im * y.im, x.re * y.im + x.im * y.re⟩⟩

instance : CommRing Amp where
  add := (· + ·)
  zero := 0
  neg := (- ·)
  nsmul := nsmulRec
  zsmul := zsmulRec
  mul := (· * ·)
  one := 1
  add_assoc := fun ⟨a, b⟩ ⟨c, d⟩ ⟨e, f⟩ => by
    apply eqAmp
    · show a + c + e = a + (c + e); ring
    · show b + d + f = b + (d + f); ring
  zero_add := fun ⟨a, b⟩ => by
    apply eqAmp
    · show 0 + a = a; ring
    · show 0 + b = b; ring
  add_zero := fun ⟨a, b⟩ => by
    apply eqAmp
    · show a + 0 = a; ring
    · show b + 0 = b; ring
  add_comm := fun ⟨a, b⟩ ⟨c, d⟩ => by
    apply eqAmp
    · show a + c = c + a; ring
    · show b + d = d + b; ring
  left_distrib := fun ⟨a, b⟩ ⟨c, d⟩ ⟨e, f⟩ => by
    apply eqAmp
    · show a * (c + e) - b * (d + f) = a * c - b * d + (a * e - b * f); ring
    · show a * (d + f) + b * (c + e) = a * d + b * c + (a * f + b * e); ring
  right_distrib := fun ⟨a, b⟩ ⟨c, d⟩ ⟨e, f⟩ => by
    apply eqAmp
    · show (a + c) * e - (b + d) * f = a * e - b * f + (c * e - d * f); ring
    · show (a + c) * f + (b + d) * e = a * f + b * e + (c * f + d * e); ring
  zero_mul := fun ⟨a, b⟩ => by
    apply eqAmp
    · show 0 * a - 0 * b = 0; ring
    · show 0 * b + 0 * a = 0; ring
  mul_zero := fun ⟨a, b⟩ => by
    apply eqAmp
    · show a * 0 - b * 0 = 0; ring
    · show a * 0 + b * 0 = 0; ring
  mul_assoc := fun ⟨a, b⟩ ⟨c, d⟩ ⟨e, f⟩ => by
    apply eqAmp
    · show (a * c - b * d) * e - (a * d + b * c) * f
        = a * (c * e - d * f) - b * (c * f + d * e); ring
    · show (a * c - b * d) * f + (a * d + b * c) * e
        = a * (c * f + d * e) + b * (c * e - d * f); ring
  one_mul := fun ⟨a, b⟩ => by
    apply eqAmp
    · show 1 * a - 0 * b = a; ring
    · show 1 * b + 0 * a = b; ring
  mul_one := fun ⟨a, b⟩ => by
    apply eqAmp
    · show a * 1 - b * 0 = a; ring
    · show a * 0 + b * 1 = b; ring
  neg_add_cancel := fun ⟨a, b⟩ => by
    apply eqAmp
    · show -a + a = 0; ring
    · show -b + b = 0; ring
  mul_comm := fun ⟨a, b⟩ ⟨c, d⟩ => by
    apply eqAmp
    · show a * c - b * d = c * a - d * b; ring
    · show a * d + b * c = c * b + d * a; ring

@[simp] theorem add_re (x y : Amp) : (x + y).re = x.re + y.re := rfl
@[simp] theorem add_im (x y : Amp) : (x + y).im = x.im + y.im := rfl
@[simp] theorem mul_re (x y : Amp) : (x * y).re = x.re * y.re - x.im * y.im := rfl
@[simp] theorem mul_im (x y : Amp) : (x * y).im = x.re * y.im + x.im * y.re := rfl
@[simp] theorem neg_re (x : Amp) : (-x).re = -x.re := rfl
@[simp] theorem neg_im (x : Amp) : (-x).im = -x.im := rfl
@[simp] theorem zero_re : (0 : Amp).re = 0 := rfl
@[simp] theorem zero_im : (0 : Amp).im = 0 := rfl
@[simp] theorem one_re : (1 : Amp).re = 1 := rfl
@[simp] theorem one_im : (1 : Amp).im = 0 := rfl
@[simp] theorem sub_re (x y : Amp) : (x - y).re = x.re - y.re := by
  rw [sub_eq_add_neg, sub_eq_add_neg]; simp
@[simp] theorem sub_im (x y : Amp) : (x - y).im = x.im - y.im := by
  rw [sub_eq_add_neg, sub_eq_add_neg]; simp

/-- Embedding of a real scalar as an amplitude. -/
def ofR2 (x : R2) : Amp := ⟨x, 0⟩

@[simp] theorem ofR2_re (x : R2) : (ofR2 x).re = x := rfl
@[simp] theorem ofR2_im (x : R2) : (ofR2 x).im = 0 := rfl

/-- Complex conjugation, modelling ndarray.conjugate of the source. -/
def conj (z : Amp) : Amp := ⟨z.re, -z.im⟩

/-- Squared modulus of an amplitude, an element of the real scalar field. -/
def absSq (z : Amp) : R2 := z.re * z.re + z.im * z.im

@[simp] theorem absSq_zero : absSq 0 = 0 := by
  simp [absSq]

theorem absSq_neg (z : Amp) : absSq (-z) = absSq z := by
  simp [absSq]

theorem absSq_mul (z w : Amp) : absSq (z * w) = absSq z * absSq w := by
  simp [absSq]; ring

theorem absSq_smul (c : R2) (z : Amp) : absSq (ofR2 c * z) = c * c * absSq z := by
  simp [absSq]; ring

end Amp

/-! Exact square roots and sign tests in the scalar field.  The source works
with floats; here the square root is defined exactly when the value is a
square in the field, which holds for every state the claims evaluate. -/

/-- Integer square root by bounded search (structural recursion only, so that
values reduce inside the kernel). -/
def isqrt (n : ℕ) : ℕ := ((List.range (n + 2)).filter fun k => k * k ≤ n).foldr max 0

/-- Square root of a rational, when the obvious candidate squares back:
the guard makes soundness immediate. -/
def ratSqrt (q : ℚ) : Option ℚ :=
  let c : ℚ := (isqrt q.num.toNat : ℚ) / (isqrt q.den : ℚ)
  if c * c = q then some c else none

theorem ratSqrt_sound {q r : ℚ} (h : ratSqrt q = some r) : r * r = q ∧ 0 ≤ r := by
  unfold ratSqrt at h
  dsimp only at h
  split at h
  · cases h
    constructor
    · assumption
    · positivity
  · cases h

namespace R2

/-- Decides 0 ≤ a + b * sqrt 2 by comparing squares on the appropriate side. -/
def isNonneg (x : R2) : Bool :=
  if 0 ≤ x.a then
    if 0 ≤ x.b then true else decide (2 * x.b ^ 2 ≤ x.a ^ 2)
  else
    if 0 ≤ x.b then decide (x.a ^ 2 ≤ 2 * x.b ^ 2) else false

/-- Decides 0 < a + b * sqrt 2. -/
def isPos (x : R2) : Bool := isNonneg x && !(x == 0)

/-- Decides x < y in the real ordering of the field. -/
def ltB (x y : R2) : Bool := isPos (y - x)

/-- Square root in the field Q(sqrt 2): a candidate search guarded by squaring
back and a sign test, so soundness is immediate. -/
def rsqrt (x : R2) : Option R2 :=
  let base : List R2 :=
    (match ratSqrt x.a with
     | some c => [⟨c, 0⟩]
     | none => []) ++
    (match ratSqrt (x.a / 2) with
     | some d => [⟨0, d⟩]
     | none => []) ++
    (match ratSqrt (x.a ^ 2 - 2 * x.b ^ 2) with
     | some s =>
       (match ratSqrt ((x.a + s) / 2) with
        | some c => if c = 0 then [] else [⟨c, x.b / (2 * c)⟩]
        | none => []) ++
       (match ratSqrt ((x.a - s) / 2) with
        | some c => if c = 0 then [] else [⟨c, x.b / (2 * c)⟩]
        | none => [])
     | none => [])
  (base ++ base.map fun r => -r).find? fun r => r * r == x && isNonneg r

theorem rsqrt_sound {x r : R2} (h : rsqrt x = some r) : r * r = x := by
  unfold rsqrt at h
  have := List.find?_some h
  have hb := (Bool.and_eq_true _ _).mp this |>.1
  exact eq_of_beq hb

end R2

/-- A rank-n state tensor: one amplitude for each assignment of a bit to each
of the n live qubits.  This embeds the numpy array self.psi of shape (2,)*n;
the flat numpy buffer and the function representation carry the same data. -/
abbrev QState (n : ℕ) : Type := (Fin n → Fin 2) → Amp

/-- Sum of a function over all bit assignments, by structural recursion on the
number of bits so that concrete values reduce inside the kernel.  It agrees
with the big-operator sum over the function space (sumPow_eq_sum below). -/
def sumPow {M : Type} [AddCommMonoid M] : (n : ℕ) → ((Fin n → Fin 2) → M) → M
  | 0, f => f fun i => i.elim0
  | n + 1, f => sumPow n fun w => f (Fin.snoc w 0) + f (Fin.snoc w 1)

/-- Squared norm of a state: the square of _norm of the source, which returns
sqrt of the summed squared magnitudes of the flattened tensor. -/
def normSq {n : ℕ} (ψ : QState n) : R2 := sumPow n fun v => Amp.absSq (ψ v)

/-- Embedding of the module level function single_qubit_evolution:
np.tensordot(op, psi, (1, index)) followed by np.moveaxis(result, 0, index).
The composite contracts the 2x2 operator into the axis at the given position
and restores the original axis order, which pointwise reads as below. -/
def single_qubit_evolution {n : ℕ} (ψ : QState n) (op : Fin 2 → Fin 2 → Amp)
    (index : Fin n) : QState n :=
  fun v => ∑ j, op (v index) j * ψ (Function.update v index j)

/-- Embedding of the contraction pattern shared by entangle, swap and
multi_qubit_evolution: np.tensordot(T, psi, ((2, 3), (c, t))) followed by
np.moveaxis(result, (0, 1), (c, t)), for distinct axes c and t. -/
def two_qubit_contraction {n : ℕ} (T : Fin 2 → Fin 2 → Fin 2 → Fin 2 → Amp)
    (ψ : QState n) (c t : Fin n) : QState n :=
  fun v => ∑ j, ∑ l, T (v c) (v t) j l * ψ (Function.update (Function.update v c j) t l)

/-- The CZ_TENSOR array literal of the source. -/
def CZ_TENSOR : Fin 2 → Fin 2 → Fin 2 → Fin 2 → Amp :=
  ![![![![1, 0], ![0, 0]], ![![0, 1], ![0, 0]]],
    ![![![0, 0], ![1, 0]], ![![0, 0], ![0, -1]]]]

/-- The SWAP_TENSOR array literal of the source. -/
def SWAP_TENSOR : Fin 2 → Fin 2 → Fin 2 → Fin 2 → Amp :=
  ![![![![1, 0], ![0, 0]], ![![0, 0], ![1, 0]]],
    ![![![0, 1], ![0, 0]], ![![0, 0], ![0, 1]]]]

/-- Modelled from the spec: the clifford module is not among the given
sources.  The spec names the operator applied by apply_correction for kind X
as the fixed 2x2 Pauli X operator, and CLIFFORD[1] as the Pauli X observable. -/
def PauliX : Fin 2 → Fin 2 → Amp := ![![0, 1], ![1, 0]]

/-- Modelled from the spec: CLIFFORD[2], the Pauli Y observable. -/
def PauliY : Fin 2 → Fin 2 → Amp := ![![0, ⟨0, -1⟩], ![⟨0, 1⟩, 0]]

/-- Modelled from the spec: the Pauli Z operator, used both as CLIFFORD[3] and
as the correction gate for every kind other than X. -/
def PauliZ : Fin 2 → Fin 2 → Amp := ![![1, 0], ![0, -1]]

/-- The 2x2 identity, np.eye(2) of the source. -/
def I2 : Fin 2 → Fin 2 → Amp := ![![1, 0], ![0, 1]]

/-- Modelled from the spec: the state module is not among the given sources;
the spec defines the fresh qubit as the plus state with amplitude 1/sqrt 2 on
both basis values.  In the field, 1/sqrt 2 is (1/2) * sqrt 2. -/
def plus : Fin 2 → Amp := fun _ => Amp.ofR2 ⟨0, 1/2⟩

/-- Embedding of StateVec.tensor: np.kron of the two flattened tensors,
reshaped to rank n+1.  The new qubit becomes the last axis. -/
def tensor {n : ℕ} (ψ : QState n) (other : Fin 2 → Amp) : QState (n + 1) :=
  fun v => ψ (fun i => v i.castSucc) * other (v (Fin.last n))

/-- Embedding of StateVec.normalize: divide the tensor by its norm.  The float
square root of the source is exact here: the result is defined when
sqrt(normSq psi) lies in the scalar field, and the division by the norm is
multiplication by its inverse. -/
def normalize {n : ℕ} (ψ : QState n) : Option (QState n) :=
  (R2.rsqrt (normSq ψ)).map fun r => fun v => ψ v * Amp.ofR2 (R2.inv r)

/-- Embedding of StateVec.remove_qubit: assert the norm is not close to zero
(the failing assert is the none result), slice at index 0 on the axis, fall
back to the slice at index 1 exactly when the first slice has zero norm, then
renormalize.  np.ndarray.take with index b on axis k reads the tensor with b
inserted at position k. -/
def remove_qubit {n : ℕ} (ψ : QState (n + 1)) (index : Fin (n + 1)) : Option (QState n) :=
  if normSq ψ = 0 then none
  else
    let psi0 : QState n := fun v => ψ (Fin.insertNth index 0 v)
    let psel : QState n :=
      if normSq psi0 = 0 then (fun v => ψ (Fin.insertNth index 1 v)) else psi0
    normalize psel

/-- Embedding of StateVec.expectation_single: normalize a copy of the state,
evolve it by op on the axis, and take the inner product of the flattened
conjugated state with the flattened evolved state. -/
def expectation_single {n : ℕ} (ψ : QState n) (op : Fin 2 → Fin 2 → Amp)
    (index : Fin n) : Option Amp :=
  (normalize ψ).map fun φ =>
    sumPow n fun v => Amp.conj (φ v) * single_qubit_evolution φ op index v

/-- Embedding of meas_op: np.eye(2)/2 plus, for each of the three Pauli
observables, sign * vec[i] * CLIFFORD[i+1] / 2 with sign = (-1)^measurement. -/
def meas_op (vec : R2 × R2 × R2) (measurement : ℕ) : Fin 2 → Fin 2 → Amp :=
  fun i j =>
    let sign : Amp := (-1) ^ measurement
    let half : Amp := Amp.ofR2 ⟨1/2, 0⟩
    I2 i j * half + sign * Amp.ofR2 vec.1 * PauliX i j * half
      + sign * Amp.ofR2 vec.2.1 * PauliY i j * half
      + sign * Amp.ofR2 vec.2.2 * PauliZ i j * half

/-- The simulation state owned by one StateVec instance: the rank-n tensor
self.psi together with the label list self.node_index. -/
structure SV where
  n : ℕ
  psi : QState n
  node_index : List ℕ

/-- Embedding of StateVec.prepare_state: grow the tensor by a plus qubit and
append the label.  The source performs no check that the label is fresh; its
docstring only records the assumption, so the embedded operation is total. -/
def prepare_state (s : SV) (target : ℕ) : SV :=
  ⟨s.n + 1, tensor s.psi plus, s.node_index ++ [target]⟩

/-- Embedding of StateVec.entangle: resolve both labels through node_index
(a failing lookup raises in Python: the none result), contract the CZ tensor
on the two resolved axes and restore axis order.  The bound checks model the
list-to-tensor consistency and the numpy error on repeated axes. -/
def entangle (s : SV) (control target : ℕ) : Option SV :=
  if h : control ∈ s.node_index ∧ target ∈ s.node_index ∧
      s.node_index.indexOf control < s.n ∧ s.node_index.indexOf target < s.n ∧
      s.node_index.indexOf control ≠ s.node_index.indexOf target then
    some ⟨s.n,
      two_qubit_contraction CZ_TENSOR s.psi
        ⟨s.node_index.indexOf control, h.2.2.1⟩
        ⟨s.node_index.indexOf target, h.2.2.2.1⟩,
      s.node_index⟩
  else none

/-- Embedding of StateVec.swap: the two entries of the qubits argument are
used directly as tensor axis positions, with no resolution through
node_index (unlike entangle).  Out-of-range or repeated positions make numpy
raise: the none result. -/
def swap (s : SV) (qubits : ℕ × ℕ) : Option SV :=
  if h : qubits.1 < s.n ∧ qubits.2 < s.n ∧ qubits.1 ≠ qubits.2 then
    some ⟨s.n,
      two_qubit_contraction SWAP_TENSOR s.psi ⟨qubits.1, h.1⟩ ⟨qubits.2, h.2.1⟩,
      s.node_index⟩
  else none

/-- Modelled from the spec: the label-based swap contract the specification
mandates, symmetric with entangle: resolve both labels through node_index,
apply the fixed SWAP tensor on the two resolved axes, restore axis order. -/
def swap_by_label (s : SV) (labelA labelB : ℕ) : Option SV :=
  if h : labelA ∈ s.node_index ∧ labelB ∈ s.node_index ∧
      s.node_index.indexOf labelA < s.n ∧ s.node_index.indexOf labelB < s.n ∧
      s.node_index.indexOf labelA ≠ s.node_index.indexOf labelB then
    some ⟨s.n,
      two_qubit_contraction SWAP_TENSOR s.psi
        ⟨s.node_index.indexOf labelA, h.2.2.1⟩
        ⟨s.node_index.indexOf labelB, h.2.2.2.1⟩,
      s.node_index⟩
  else none

/-- Embedding of the method StateVec.single_qubit_evolution (source lines
179-183).  The method body passes self — the StateVec object, not the array
self.psi — to the module level function single_qubit_evolution, whose
np.tensordot call then raises unconditionally: StateVec implements no array
protocol, so numpy coerces it to a 0-dimensional object array and cannot
contract any axis of it.  Every call of the method therefore raises, which
the embedding records as the constant none; the op and index arguments are
received but never influence anything, exactly as in the crash. -/
def method_single_qubit_evolution (self : SV) (op : Fin 2 → Fin 2 → Amp)
    (index : ℕ) : Option (QState self.n) :=
  none

/-- Embedding of StateVec.apply_correction: read the given entries of the
measurement record (a Python IndexError is the none result); when their
parity is odd, resolve the label (a failing lookup raises), select the gate —
X for kind "X" and Z for everything else — and apply it through the method
StateVec.single_qubit_evolution, which always raises, so the odd branch never
assigns a new tensor; on even parity the call returns with the state
untouched. -/
def apply_correction (s : SV) (type : String) (index : ℕ) (domain : List ℕ)
    (measurement_results : List ℕ) : Option SV :=
  if ∀ i ∈ domain, i < measurement_results.length then
    if (domain.map fun i => measurement_results.getD i 0).sum % 2 = 1 then
      if index ∈ s.node_index then
        let cliff_gate := if type = "X" then PauliX else PauliZ
        match method_single_qubit_evolution s cliff_gate (s.node_index.indexOf index) with
        | none => none
        | some psi2 => some ⟨s.n, psi2, s.node_index⟩
      else none
    else some s
  else none

/-- Embedding of StateVec.measure from the projector construction onwards,
at the level of the tensor and the label list.  Modelled from the spec: the
adaptive basis update (pauli.MeasureUpdate and the polar map, whose module is
not among the sources) is abstracted by passing its resulting Bloch unit
vector directly, and the single uniform draw random.random() is passed as the
explicit rational sample.  Failing lookups and steps are the none result.
After the draw, the projection at source line 157 goes through the method
StateVec.single_qubit_evolution, which raises on every call, so the removal,
the label erasure and the returned outcome that follow it in the source are
dead code; they are embedded after the failing call exactly as written. -/
def measure {n : ℕ} (ψ : QState (n + 1)) (node_index : List ℕ) (index : ℕ)
    (vec : R2 × R2 × R2) (sample : ℚ) : Option (ℕ × QState n × List ℕ) :=
  if h : index ∈ node_index ∧ node_index.indexOf index < n + 1 then
    let loc : Fin (n + 1) := ⟨node_index.indexOf index, h.2⟩
    let op := meas_op vec 0
    match expectation_single ψ op loc with
    | none => none
    | some e =>
      match R2.rsqrt (Amp.absSq e) with
      | none => none
      | some proba_Plus =>
        let measurement : ℕ := if R2.ltB proba_Plus (R2.ofRat sample) then 1 else 0
        let op2 := meas_op vec measurement
        match method_single_qubit_evolution ⟨n + 1, ψ, node_index⟩ op2 loc.val with
        | none => none
        | some psi2 =>
          match remove_qubit psi2 loc with
          | none => none
          | some psi3 => some (measurement, psi3, node_index.erase index)
  else none

/-- The tensor np.ones((2,)*n) / 2^(n/2) built by StateVec.__init__: every
amplitude equals (1/sqrt 2)^n. -/
def uniformPlus (n : ℕ) : QState n := fun _ => Amp.ofR2 ((⟨0, 1/2⟩ : R2) ^ n)

/-- Embedding of StateVec.__init__ for an explicitly supplied list of input
nodes: the uniform plus tensor over the given labels. -/
def StateVec_init (input_nodes : List ℕ) : SV :=
  ⟨input_nodes.length, uniformPlus input_nodes.length, input_nodes⟩

/-- One call of a lifecycle or correction sequence: the operations of the
source that consume no randomness. -/
inductive OpC : Type
  | prep (label : ℕ)
  | ent (control target : ℕ)
  | swp (qubits : ℕ × ℕ)
  | corr (type : String) (index : ℕ) (domain : List ℕ) (results : List ℕ)

/-- One call dispatched to the corresponding embedded operation. -/
def stepSV : OpC → SV → Option SV
  | OpC.prep l, s => some (prepare_state s l)
  | OpC.ent a b, s => entangle s a b
  | OpC.swp q, s => swap s q
  | OpC.corr ty i d r, s => apply_correction s ty i d r

/-- A sequence of calls, stopping at the first failure. -/
def runOps : List OpC → SV → Option SV
  | [], s => some s
  | o :: os, s => (stepSV o s).bind (runOps os)

/-- How a StateVec object refers to its node_index list: it either owns a
fresh list object or aliases the module level default-argument object.  This
embeds the Python reference semantics of the line
def init(self, input_nodes=[]) of the source: the default list object is
created once, when the function object is built, and every construction that
omits the argument binds that same object, which self.node_index then
aliases. -/
inductive NodeRef : Type
  | defaultArg : NodeRef
  | own : List ℕ → NodeRef

/-- One StateVec object on the Python heap: its tensor (np.ones always
allocates a fresh array, so the tensor is owned) and its node_index
reference. -/
structure PySession where
  n : ℕ
  psi : QState n
  nodes : NodeRef

/-- Python heap state for several coexisting sessions: the single
default-argument list object plus the session objects. -/
structure PyWorld where
  defaultList : List ℕ
  sessions : List PySession

/-- Construction StateVec() with the argument omitted: the new session binds
the shared default list object. -/
def newStateVecDefault (w : PyWorld) : PyWorld :=
  { w with
    sessions := w.sessions
      ++ [⟨w.defaultList.length, uniformPlus w.defaultList.length, NodeRef.defaultArg⟩] }

/-- The node_index list a session currently sees. -/
def readNodes (w : PyWorld) (s : PySession) : List ℕ :=
  match s.nodes with
  | NodeRef.defaultArg => w.defaultList
  | NodeRef.own l => l

/-- The node_index seen by the session at a position, if it exists. -/
def readNodesAt (w : PyWorld) (i : ℕ) : Option (List ℕ) :=
  (w.sessions.get? i).map fun s => readNodes w s

/-- prepare_state called on the session at a position: the tensor grows and
target is appended to the list object the session references; when that is
the shared default object, the append is visible through every session that
aliases it. -/
def prepareAt (w : PyWorld) (i : ℕ) (target : ℕ) : PyWorld :=
  match w.sessions.get? i with
  | none => w
  | some s =>
    match s.nodes with
    | NodeRef.defaultArg =>
      { defaultList := w.defaultList ++ [target],
        sessions := w.sessions.set i ⟨s.n + 1, tensor s.psi plus, NodeRef.defaultArg⟩ }
    | NodeRef.own l =>
      { defaultList := w.defaultList,
        sessions := w.sessions.set i ⟨s.n + 1, tensor s.psi plus, NodeRef.own (l ++ [target])⟩ }

/-- The sign the CZ tensor attaches to a basis state: -1 on the 11 branch. -/
def czsign (a b : Fin 2) : Amp := if a = 1 ∧ b = 1 then -1 else 1

/-- Exchange of the two coordinates at positions c and t of a bit vector. -/
def swapbits {n : ℕ} (c t : Fin n) (v : Fin n → Fin 2) : Fin n → Fin 2 :=
  Function.update (Function.update v c (v t)) t (v c)

/-- The bit flip on Fin 2, the action of the Pauli X matrix on basis states. -/
def bflip : Fin 2 → Fin 2 := ![1, 0]

/-! Helper lemmas about the embedded operations. -/

theorem fin2_eq : ∀ i : Fin 2, i = 0 ∨ i = 1 := by decide

theorem sumPow_eq_sum {M : Type} [AddCommMonoid M] :
    ∀ (n : ℕ) (f : (Fin n → Fin 2) → M), sumPow n f = ∑ v, f v := by
  intro n
  induction n with
  | zero =>
    intro f
    rw [show sumPow 0 f = f (fun i => i.elim0) from rfl]
    rw [Finset.univ_unique, Finset.sum_singleton]
    exact congrArg f (Subsingleton.elim _ _)
  | succ n ih =>
    intro f
    calc sumPow (n + 1) f
        = ∑ w, (f (Fin.snoc w 0) + f (Fin.snoc w 1)) := ih _
      _ = (∑ w, f (Fin.snoc w 0)) + (∑ w, f (Fin.snoc w 1)) := Finset.sum_add_distrib
      _ = ∑ x : Fin 2, ∑ w, f (Fin.snoc w x) :=
          (Fin.sum_univ_two fun x => ∑ w, f (Fin.snoc w x)).symm
      _ = ∑ p : Fin 2 × (Fin n → Fin 2), f (Fin.snoc p.2 p.1) := by
          rw [Fintype.sum_prod_type]
      _ = ∑ v, f v := by
          refine Fintype.sum_equiv (Fin.snocEquiv fun _ => Fin 2) _ _ fun p => ?_
          simp [Fin.snocEquiv]

theorem normSq_eq_sum {n : ℕ} (ψ : QState n) : normSq ψ = ∑ v, Amp.absSq (ψ v) :=
  sumPow_eq_sum n _

/-- Rewriting helper: updating a coordinate with the value it already has. -/
theorem update_self_of {n : ℕ} (v : Fin n → Fin 2) (c : Fin n) (b : Fin 2)
    (h : v c = b) : Function.update v c b = v := by
  rw [← h, Function.update_eq_self]

/-- The CZ contraction is diagonal: it multiplies each amplitude by the sign
of the bits at the two contracted axes. -/
theorem CZ_contraction_apply {n : ℕ} (ψ : QState n) (c t : Fin n)
    (v : Fin n → Fin 2) :
    two_qubit_contraction CZ_TENSOR ψ c t v = czsign (v c) (v t) * ψ v := by
  have hv : ∀ b1 b2 : Fin 2, v c = b1 → v t = b2 →
      Function.update (Function.update v c b1) t b2 = v := by
    intro b1 b2 h1 h2
    rw [update_self_of v c b1 h1, update_self_of v t b2 h2]
  rcases fin2_eq (v c) with hc | hc <;> rcases fin2_eq (v t) with ht | ht <;>
    simp only [two_qubit_contraction, hc, ht, czsign] <;>
    simp [Fin.sum_univ_two, CZ_TENSOR, hv _ _ hc ht]

/-- The SWAP contraction permutes amplitudes: it reads the amplitude with the
two contracted coordinates exchanged. -/
theorem SWAP_contraction_apply {n : ℕ} (ψ : QState n) (c t : Fin n)
    (v : Fin n → Fin 2) :
    two_qubit_contraction SWAP_TENSOR ψ c t v = ψ (swapbits c t v) := by
  rcases fin2_eq (v c) with hc | hc <;> rcases fin2_eq (v t) with ht | ht <;>
    simp only [two_qubit_contraction, swapbits, hc, ht] <;>
    simp [Fin.sum_univ_two, SWAP_TENSOR]

theorem swapbits_at_c {n : ℕ} {c t : Fin n} (hct : c ≠ t) (v : Fin n → Fin 2) :
    swapbits c t v c = v t := by
  unfold swapbits
  rw [Function.update_noteq hct, Function.update_same]

theorem swapbits_at_t {n : ℕ} (c t : Fin n) (v : Fin n → Fin 2) :
    swapbits c t v t = v c := by
  unfold swapbits
  rw [Function.update_same]

theorem swapbits_at_other {n : ℕ} {c t i : Fin n} (hic : i ≠ c) (hit : i ≠ t)
    (v : Fin n → Fin 2) : swapbits c t v i = v i := by
  unfold swapbits
  rw [Function.update_noteq hit, Function.update_noteq hic]

theorem swapbits_invol {n : ℕ} {c t : Fin n} (hct : c ≠ t) :
    Function.Involutive (swapbits c t) := by
  intro v
  funext i
  by_cases hic : i = c
  · subst hic
    rw [swapbits_at_c hct, swapbits_at_t]
  · by_cases hit : i = t
    · subst hit
      rw [swapbits_at_t, swapbits_at_c hct]
    · rw [swapbits_at_other hic hit, swapbits_at_other hic hit]

theorem czsign_cases {a b : Fin 2} : czsign a b = 1 ∨ czsign a b = -1 := by
  by_cases h : a = 1 ∧ b = 1 <;> simp [czsign, h]

/-- Norm invariance of any amplitude-wise reindexing along a bijection. -/
theorem normSq_comp_bijective {n : ℕ} (ψ : QState n)
    {e : (Fin n → Fin 2) → (Fin n → Fin 2)} (he : Function.Bijective e) :
    normSq (fun v => ψ (e v)) = normSq ψ := by
  rw [normSq_eq_sum, normSq_eq_sum]
  exact he.sum_comp fun v => Amp.absSq (ψ v)

theorem normSq_CZ_contraction {n : ℕ} (ψ : QState n) (c t : Fin n) :
    normSq (two_qubit_contraction CZ_TENSOR ψ c t) = normSq ψ := by
  rw [normSq_eq_sum, normSq_eq_sum]
  refine Finset.sum_congr rfl fun v _ => ?_
  rw [CZ_contraction_apply]
  rcases czsign_cases (a := v c) (b := v t) with h | h <;> rw [h]
  · rw [one_mul]
  · rw [neg_one_mul, Amp.absSq_neg]

theorem CZ_contraction_invol {n : ℕ} (ψ : QState n) (c t : Fin n) :
    two_qubit_contraction CZ_TENSOR (two_qubit_contraction CZ_TENSOR ψ c t) c t = ψ := by
  funext v
  rw [CZ_contraction_apply, CZ_contraction_apply]
  rcases czsign_cases (a := v c) (b := v t) with h | h <;> rw [h] <;> ring

theorem normSq_SWAP_contraction {n : ℕ} (ψ : QState n) {c t : Fin n} (hct : c ≠ t) :
    normSq (two_qubit_contraction SWAP_TENSOR ψ c t) = normSq ψ := by
  rw [show two_qubit_contraction SWAP_TENSOR ψ c t = fun v => ψ (swapbits c t v) from
    funext fun v => SWAP_contraction_apply ψ c t v]
  exact normSq_comp_bijective ψ (swapbits_invol hct).bijective

theorem X_evolution_apply {n : ℕ} (ψ : QState n) (k : Fin n) (v : Fin n → Fin 2) :
    single_qubit_evolution ψ PauliX k v = ψ (Function.update v k (bflip (v k))) := by
  rcases fin2_eq (v k) with h | h <;>
    simp only [single_qubit_evolution, h] <;>
    simp [Fin.sum_univ_two, PauliX, bflip]

theorem Z_evolution_apply {n : ℕ} (ψ : QState n) (k : Fin n) (v : Fin n → Fin 2) :
    single_qubit_evolution ψ PauliZ k v = (if v k = 1 then -1 else 1) * ψ v := by
  rcases fin2_eq (v k) with h | h <;>
    simp only [single_qubit_evolution, h] <;>
    simp [Fin.sum_univ_two, PauliZ, update_self_of v k _ h]

theorem flipbit_invol {n : ℕ} (k : Fin n) :
    Function.Involutive fun v : Fin n → Fin 2 => Function.update v k (bflip (v k)) := by
  intro v
  simp only [Function.update_same]
  rw [show bflip (bflip (v k)) = v k from by
    rcases fin2_eq (v k) with h | h <;> rw [h] <;> rfl]
  rw [Function.update_idem, Function.update_eq_self]

theorem normSq_X_evolution {n : ℕ} (ψ : QState n) (k : Fin n) :
    normSq (single_qubit_evolution ψ PauliX k) = normSq ψ := by
  rw [show single_qubit_evolution ψ PauliX k
      = fun v => ψ (Function.update v k (bflip (v k))) from
    funext fun v => X_evolution_apply ψ k v]
  exact normSq_comp_bijective ψ (flipbit_invol k).bijective

theorem normSq_Z_evolution {n : ℕ} (ψ : QState n) (k : Fin n) :
    normSq (single_qubit_evolution ψ PauliZ k) = normSq ψ := by
  rw [normSq_eq_sum, normSq_eq_sum]
  refine Finset.sum_congr rfl fun v _ => ?_
  rw [Z_evolution_apply]
  by_cases h : v k = 1 <;> simp [h, Amp.absSq_neg]

theorem X_evolution_twice {n : ℕ} (ψ : QState n) (k : Fin n) :
    single_qubit_evolution (single_qubit_evolution ψ PauliX k) PauliX k = ψ := by
  funext v
  rw [X_evolution_apply, X_evolution_apply]
  exact congrArg ψ (flipbit_invol k v)

theorem Z_evolution_twice {n : ℕ} (ψ : QState n) (k : Fin n) :
    single_qubit_evolution (single_qubit_evolution ψ PauliZ k) PauliZ k = ψ := by
  funext v
  rw [Z_evolution_apply, Z_evolution_apply]
  by_cases h : v k = 1 <;> simp [h] <;> ring

/-- Norm of a tensor product against a fresh single-qubit factor. -/
theorem normSq_tensor {n : ℕ} (ψ : QState n) (φ : Fin 2 → Amp) :
    normSq (tensor ψ φ) = normSq ψ * (Amp.absSq (φ 0) + Amp.absSq (φ 1)) := by
  calc normSq (tensor ψ φ)
      = ∑ v, Amp.absSq (tensor ψ φ v) := normSq_eq_sum _
    _ = ∑ p : Fin 2 × (Fin n → Fin 2),
          Amp.absSq (tensor ψ φ ((Fin.snocEquiv fun _ => Fin 2) p)) :=
        ((Fin.snocEquiv fun _ => Fin 2).sum_comp _).symm
    _ = ∑ x : Fin 2, ∑ w, Amp.absSq (ψ w) * Amp.absSq (φ x) := by
        rw [Fintype.sum_prod_type]
        refine Finset.sum_congr rfl fun x _ => Finset.sum_congr rfl fun w _ => ?_
        simp [tensor, Fin.snocEquiv, Fin.snoc_castSucc, Fin.snoc_last, Amp.absSq_mul]
    _ = normSq ψ * (Amp.absSq (φ 0) + Amp.absSq (φ 1)) := by
        rw [Fin.sum_univ_two, ← Finset.sum_mul, ← Finset.sum_mul, ← mul_add,
          normSq_eq_sum]

theorem plus_norm : Amp.absSq (plus 0) + Amp.absSq (plus 1) = 1 := by
  apply R2.eqR2 <;> simp [plus, Amp.absSq] <;> norm_num

/-- The squared norm splits across the two slices along any axis. -/
theorem normSq_slice_split {n : ℕ} (ψ : QState (n + 1)) (k : Fin (n + 1)) :
    normSq ψ = normSq (fun w => ψ (k.insertNth 0 w)) + normSq (fun w => ψ (k.insertNth 1 w)) := by
  calc normSq ψ
      = ∑ v, Amp.absSq (ψ v) := normSq_eq_sum _
    _ = ∑ p : Fin 2 × (Fin n → Fin 2),
          Amp.absSq (ψ ((Fin.insertNthEquiv (fun _ => Fin 2) k) p)) :=
        ((Fin.insertNthEquiv (fun _ => Fin 2) k).sum_comp _).symm
    _ = ∑ x : Fin 2, ∑ w, Amp.absSq (ψ (k.insertNth x w)) := by
        rw [Fintype.sum_prod_type]
        refine Finset.sum_congr rfl fun x _ => Finset.sum_congr rfl fun w _ => ?_
        simp [Fin.insertNthEquiv]
    _ = _ := by
        rw [Fin.sum_univ_two, normSq_eq_sum (fun w => ψ (k.insertNth 0 w)),
          normSq_eq_sum (fun w => ψ (k.insertNth 1 w))]

theorem normalize_normSq {n : ℕ} {ψ φ : QState n} (hnz : normSq ψ ≠ 0)
    (h : normalize ψ = some φ) : normSq φ = 1 := by
  unfold normalize at h
  rcases hr : R2.rsqrt (normSq ψ) with _ | r
  · rw [hr] at h; cases h
  · rw [hr] at h
    rw [show (some r).map (fun r => fun v => ψ v * Amp.ofR2 (R2.inv r))
        = some fun v => ψ v * Amp.ofR2 (R2.inv r) from rfl] at h
    injection h with h
    have hsq : r * r = normSq ψ := R2.rsqrt_sound hr
    have hr0 : r ≠ 0 := by
      intro h0
      apply hnz
      rw [← hsq, h0, mul_zero]
    have hcancel : r * R2.inv r = 1 := R2.mul_inv_cancel2 hr0
    have hstep : normSq φ = (R2.inv r * R2.inv r) * normSq ψ := by
      rw [← h, normSq_eq_sum, normSq_eq_sum, Finset.mul_sum]
      refine Finset.sum_congr rfl fun v _ => ?_
      rw [mul_comm (ψ v) (Amp.ofR2 (R2.inv r)), Amp.absSq_smul]
    rw [hstep, ← hsq]
    calc R2.inv r * R2.inv r * (r * r) = (r * R2.inv r) * (r * R2.inv r) := by ring
      _ = 1 := by rw [hcancel, one_mul]

/-! Norm preservation of each lifecycle and correction call. -/

theorem prepare_state_normSq (s : SV) (target : ℕ) :
    normSq (prepare_state s target).psi = normSq s.psi := by
  show normSq (tensor s.psi plus) = normSq s.psi
  rw [normSq_tensor, plus_norm, mul_one]

theorem entangle_normSq {s s2 : SV} {a b : ℕ} (h : entangle s a b = some s2) :
    normSq s2.psi = normSq s.psi := by
  unfold entangle at h
  split at h
  · injection h with h
    rw [← h]
    exact normSq_CZ_contraction s.psi _ _
  · cases h

theorem swap_normSq {s s2 : SV} {q : ℕ × ℕ} (h : swap s q = some s2) :
    normSq s2.psi = normSq s.psi := by
  unfold swap at h
  split at h
  case isTrue hc =>
    injection h with h
    rw [← h]
    exact normSq_SWAP_contraction s.psi (Fin.ne_of_val_ne hc.2.2)
  case isFalse => cases h

theorem apply_correction_normSq {s s2 : SV} {ty : String} {i : ℕ}
    {domain results : List ℕ} (h : apply_correction s ty i domain results = some s2) :
    normSq s2.psi = normSq s.psi := by
  unfold apply_correction at h
  split at h
  · split at h
    · split at h
      · exact Option.noConfusion h
      · exact Option.noConfusion h
    · injection h with h
      rw [← h]
  · exact Option.noConfusion h

theorem stepSV_normSq {o : OpC} {s s2 : SV} (h : stepSV o s = some s2) :
    normSq s2.psi = normSq s.psi := by
  cases o with
  | prep l =>
    injection h with h
    rw [← h]
    exact prepare_state_normSq s l
  | ent a b => exact entangle_normSq h
  | swp q => exact swap_normSq h
  | corr ty i d r =>
    exact apply_correction_normSq (show apply_correction s ty i d r = some s2 from h)

theorem runOps_normSq : ∀ (ops : List OpC) (s s2 : SV),
    runOps ops s = some s2 → normSq s2.psi = normSq s.psi := by
  intro ops
  induction ops with
  | nil =>
    intro s s2 h
    injection h with h
    rw [h]
  | cons o os ih =>
    intro s s2 h
    unfold runOps at h
    rcases ho : stepSV o s with _ | s1
    · rw [ho] at h; cases h
    · rw [ho] at h
      have h2 : runOps os s1 = some s2 := h
      rw [ih s1 s2 h2, stepSV_normSq ho]

/-! The claims. -/

/-- C1: the claim says swap resolves both of its arguments through the label
map, symmetrically with entangle.  The code instead uses the two arguments
directly as tensor axis positions: on a two-qubit state whose live labels are
5 and 7, swap((5, 7)) fails (numpy raises on the out-of-range axes), while
the label-resolved contract the spec mandates succeeds. -/
theorem swap_ignores_label_map :
    ((5 : ℕ) ∈ (StateVec_init [5, 7]).node_index)
    ∧ ((7 : ℕ) ∈ (StateVec_init [5, 7]).node_index)
    ∧ (swap (StateVec_init [5, 7]) (5, 7)).isNone = true
    ∧ (swap_by_label (StateVec_init [5, 7]) 5 7).isSome = true :=
  ⟨by decide, by decide, by decide, by decide⟩

/-- C3 counterexample: the claim says preparing an already-live label fails
and the failure propagates.  In the code prepare_state performs no check:
with label 0 already live it returns normally, appends the label a second
time and grows the tensor again. -/
theorem prepare_duplicate_succeeds :
    ((0 : ℕ) ∈ (prepare_state (StateVec_init []) 0).node_index)
    ∧ (prepare_state (prepare_state (StateVec_init []) 0) 0).node_index = [0, 0]
    ∧ (prepare_state (prepare_state (StateVec_init []) 0) 0).n = 2 :=
  ⟨by decide, rfl, rfl⟩

/-- C3 amended: prepare_state performs no liveness check; called on a state
in which the label is already live it succeeds, grows the tensor by one plus
qubit, and leaves the label with at least two entries in node_index. -/
theorem prepare_state_unchecked (s : SV) (target : ℕ)
    (hlive : target ∈ s.node_index) :
    prepare_state s target = ⟨s.n + 1, tensor s.psi plus, s.node_index ++ [target]⟩
    ∧ 2 ≤ (prepare_state s target).node_index.count target := by
  refine ⟨rfl, ?_⟩
  show 2 ≤ (s.node_index ++ [target]).count target
  rw [List.count_append]
  have h1 : 0 < s.node_index.count target := List.count_pos_iff.mpr hlive
  have h2 : List.count target [target] = 1 := by simp
  omega

/-- C6: for every sequence of prepare, entangle, swap and apply_correction
calls that completes, starting from a state of norm one, the norm of the
state tensor after each call is still one (exactly, in the exact model). -/
theorem norm_invariant_over_sequences (ops : List OpC) (s s2 : SV)
    (hinit : normSq s.psi = 1) (hrun : runOps ops s = some s2) :
    normSq s2.psi = 1 := by
  rw [runOps_normSq ops s s2 hrun, hinit]

/-- C7: the even-parity half of the claim holds — apply_correction is a pure
function of its arguments (it draws no randomness) and an even-parity domain
leaves the state exactly unchanged — but the odd-parity half is false of the
code: line 176 applies the gate through the method
StateVec.single_qubit_evolution, which raises on every call (line 183 passes
self instead of self.psi), so the named Pauli operator is never applied and
the call raises instead of transforming the state. -/
theorem apply_correction_odd_raises (s : SV) (type : String) (index : ℕ)
    (domain results : List ℕ) (hmem : index ∈ s.node_index)
    (hb : ∀ i ∈ domain, i < results.length) :
    ((domain.map fun i => results.getD i 0).sum % 2 ≠ 1 →
        apply_correction s type index domain results = some s)
    ∧ ((domain.map fun i => results.getD i 0).sum % 2 = 1 →
        apply_correction s type index domain results = none) := by
  constructor
  · intro hpar
    unfold apply_correction
    rw [if_pos hb, if_neg hpar]
  · intro hpar
    unfold apply_correction
    rw [if_pos hb, if_pos hpar, if_pos hmem]
    rfl

/-- C8: whenever entangle succeeds on two live labels, it preserves the
squared norm exactly, and entangling the same pair again returns the state
(tensor and label list) to its pre-call value: the CZ tensor is its own
inverse. -/
theorem entangle_unitary_involutive {s s2 : SV} {a b : ℕ}
    (h : entangle s a b = some s2) :
    normSq s2.psi = normSq s.psi ∧ entangle s2 a b = some s := by
  refine ⟨entangle_normSq h, ?_⟩
  unfold entangle at h ⊢
  split at h
  case isTrue hc =>
    injection h with h
    rw [← h]
    dsimp only
    rw [dif_pos hc, CZ_contraction_invol]
  case isFalse => cases h

/-- C9: the claim says two sessions never share the label map, including two
sessions built with the default empty input-node argument.  In the code the
default argument is a single list object created once: after
s1 = StateVec(); s2 = StateVec(); s1.prepare_state(0), the second session
reads node_index [0] (it aliased the same list), not the empty list the
claim requires; its tensor is unchanged (rank still 0). -/
theorem default_argument_aliasing :
    readNodesAt (newStateVecDefault (newStateVecDefault ⟨[], []⟩)) 1 = some []
    ∧ readNodesAt (prepareAt (newStateVecDefault (newStateVecDefault ⟨[], []⟩)) 0 0) 1
        = some [0]
    ∧ ((prepareAt (newStateVecDefault (newStateVecDefault ⟨[], []⟩)) 0 0).sessions.get? 1).map
        (fun s => s.n) = some 0 :=
  ⟨rfl, rfl, rfl⟩

/-- C10 counterexample: the claim says an unrecognised kind (here "Y") with
an odd-parity domain and a live label makes apply_correction silently apply
the Pauli Z gate instead of raising an error; at this concrete input the
call raises (the none result) and no gate is applied. -/
theorem unrecognized_kind_raises :
    apply_correction (prepare_state (StateVec_init []) 0) "Y" 0 [0] [1] = none := rfl

/-- C10 amended: apply_correction never tests the kind string for validity —
line 175 selects the Z gate for every kind other than "X" — but no kind is
ever rejected as unrecognised: with an odd-parity domain the gate
application raises for every kind, recognised or not (the method of line 183
passes self instead of self.psi), and with an even-parity domain every kind
string, including "Y" or the empty string, silently succeeds and leaves the
state unchanged. -/
theorem apply_correction_kind_untested (s : SV) (type : String)
    (hty : type ≠ "X") (index : ℕ) (domain results : List ℕ)
    (hmem : index ∈ s.node_index) (hb : ∀ i ∈ domain, i < results.length) :
    ((domain.map fun i => results.getD i 0).sum % 2 = 1 →
        apply_correction s type index domain results = none
        ∧ apply_correction s "X" index domain results = none)
    ∧ ((domain.map fun i => results.getD i 0).sum % 2 ≠ 1 →
        apply_correction s type index domain results = some s) := by
  constructor
  · intro hpar
    constructor <;>
      · unfold apply_correction
        rw [if_pos hb, if_pos hpar, if_pos hmem]
        rfl
  · intro hpar
    unfold apply_correction
    rw [if_pos hb, if_neg hpar]

/-- C4: on a state whose measured axis holds a collapsed basis state (and has
a nonzero norm, as the assert of the source requires), remove_qubit selects
the slice at index 0 on that axis, falls back to the slice at index 1
exactly when the index-0 slice has zero norm, and renormalizes the result to
norm one; the rank drops from n+1 to n by construction, and the removal step
of measure deletes the label: erasing a label occurring once shortens the
list by exactly one entry and removes the label. -/
theorem remove_qubit_spec {n : ℕ} (ψ : QState (n + 1)) (k : Fin (n + 1)) (b : Fin 2)
    (hcol : ∀ v, ψ v ≠ 0 → v k = b) (hnz : normSq ψ ≠ 0) :
    (remove_qubit ψ k
      = if normSq (fun w => ψ (k.insertNth 0 w)) = 0
          then normalize fun w => ψ (k.insertNth 1 w)
          else normalize fun w => ψ (k.insertNth 0 w))
    ∧ (∀ φ, remove_qubit ψ k = some φ → normSq φ = 1)
    ∧ (∀ (idx : List ℕ) (label : ℕ), idx.count label = 1 →
        (idx.erase label).length + 1 = idx.length ∧ label ∉ idx.erase label) := by
  have hmain : remove_qubit ψ k
      = if normSq (fun w => ψ (k.insertNth 0 w)) = 0
          then normalize fun w => ψ (k.insertNth 1 w)
          else normalize fun w => ψ (k.insertNth 0 w) := by
    unfold remove_qubit
    rw [if_neg hnz]
    dsimp only
    by_cases h0 : normSq (fun w => ψ (k.insertNth 0 w)) = 0
    · rw [if_pos h0, if_pos h0]
    · rw [if_neg h0, if_neg h0]
  refine ⟨hmain, fun φ hφ => ?_, fun idx label hcount => ?_⟩
  · rw [hmain] at hφ
    have hsplit := normSq_slice_split ψ k
    by_cases h0 : normSq (fun w => ψ (k.insertNth 0 w)) = 0
    · rw [if_pos h0] at hφ
      rw [h0, zero_add] at hsplit
      exact normalize_normSq (hsplit ▸ hnz) hφ
    · rw [if_neg h0] at hφ
      exact normalize_normSq h0 hφ
  · have hmem : label ∈ idx := by
      have : 0 < idx.count label := by omega
      exact List.count_pos_iff.mp this
    have hlen : (idx.erase label).length = idx.length - 1 :=
      List.length_erase_of_mem hmem
    have hpos : 0 < idx.length := List.length_pos.mpr (List.ne_nil_of_mem hmem)
    refine ⟨by omega, ?_⟩
    have hc : (idx.erase label).count label = idx.count label - 1 :=
      List.count_erase_self label idx
    rw [hcount] at hc
    intro hmem2
    have := List.count_pos_iff.mpr hmem2
    omega

/-- C5: the claim describes the intended protocol of measure — build the
projector, compute p0, draw one sample, realize outcome 1 exactly when the
sample exceeds p0, rebuild the projector with the negated Pauli term, and
return the binary outcome — but the source never completes it: after the
draw, line 157 applies the projector through the method
StateVec.single_qubit_evolution, which raises on every call (line 183 passes
self instead of self.psi).  measure therefore raises before projecting,
removing the qubit, erasing the label or returning an outcome, whatever the
state, the label, the basis vector and the sample. -/
theorem measure_always_raises {n : ℕ} (ψ : QState (n + 1)) (idx : List ℕ)
    (label : ℕ) (vec : R2 × R2 × R2) (sample : ℚ) :
    measure ψ idx label vec sample = none := by
  unfold measure
  split
  case isTrue h =>
    dsimp only
    rcases expectation_single ψ (meas_op vec 0) ⟨idx.indexOf label, h.2⟩ with _ | e
    · rfl
    · dsimp only
      rcases R2.rsqrt (Amp.absSq e) with _ | p
      · rfl
      · rfl
  case isFalse h => rfl

/-! Concrete instantiations of the claims with hypotheses.  The rational
arithmetic of the core library is irreducible by default; for these closed
evaluations it is made unfoldable locally. -/

section

attribute [local semireducible] Rat.add Rat.mul Rat.sub Rat.inv

/-- C3 amended, instantiated: label 0 is already live and prepare_state still
succeeds, appending a duplicate entry. -/
theorem prepare_state_unchecked_witness :
    ((0 : ℕ) ∈ (prepare_state (StateVec_init []) 0).node_index)
    ∧ (prepare_state (prepare_state (StateVec_init []) 0) 0
        = ⟨(prepare_state (StateVec_init []) 0).n + 1,
            tensor (prepare_state (StateVec_init []) 0).psi plus,
            (prepare_state (StateVec_init []) 0).node_index ++ [0]⟩
      ∧ 2 ≤ (prepare_state (prepare_state (StateVec_init []) 0) 0).node_index.count 0) :=
  ⟨by decide, prepare_state_unchecked (prepare_state (StateVec_init []) 0) 0 (by decide)⟩

/-- C6, instantiated: a five-call sequence (two preparations, an
entanglement, a swap, an X correction with even parity — the only parity a
correction call survives) runs from the empty state and ends with squared
norm one. -/
theorem norm_invariant_over_sequences_witness :
    normSq (StateVec_init []).psi = 1
    ∧ normSq ((runOps
        [OpC.prep 0, OpC.prep 1, OpC.ent 0 1, OpC.swp (0, 1), OpC.corr "X" 0 [0] [0, 1]]
        (StateVec_init [])).getD (StateVec_init [])).psi = 1 :=
  ⟨by decide,
    norm_invariant_over_sequences
      [OpC.prep 0, OpC.prep 1, OpC.ent 0 1, OpC.swp (0, 1), OpC.corr "X" 0 [0] [0, 1]]
      (StateVec_init []) _ (by decide) rfl⟩

/-- C7, instantiated: on a one-qubit state, a Z correction with an empty
(even-parity) domain returns the state untouched, and one with odd parity
raises instead of applying the gate. -/
theorem apply_correction_odd_raises_witness :
    apply_correction (prepare_state (StateVec_init []) 3) "Z" 3 [] [1]
      = some (prepare_state (StateVec_init []) 3)
    ∧ apply_correction (prepare_state (StateVec_init []) 3) "Z" 3 [0] [1] = none :=
  ⟨(apply_correction_odd_raises (prepare_state (StateVec_init []) 3) "Z" 3 [] [1]
      (by decide) (by decide)).1 (by decide),
    (apply_correction_odd_raises (prepare_state (StateVec_init []) 3) "Z" 3 [0] [1]
      (by decide) (by decide)).2 (by decide)⟩

/-- C8, instantiated: entangling qubits 0 and 1 of the two-qubit plus state
preserves the squared norm, and entangling again restores the state. -/
theorem entangle_unitary_involutive_witness :
    normSq ((entangle (prepare_state (prepare_state (StateVec_init []) 0) 1) 0 1).getD
        (prepare_state (prepare_state (StateVec_init []) 0) 1)).psi
      = normSq (prepare_state (prepare_state (StateVec_init []) 0) 1).psi
    ∧ entangle ((entangle (prepare_state (prepare_state (StateVec_init []) 0) 1) 0 1).getD
        (prepare_state (prepare_state (StateVec_init []) 0) 1)) 0 1
      = some (prepare_state (prepare_state (StateVec_init []) 0) 1) :=
  entangle_unitary_involutive rfl

/-- C10 amended, instantiated: the unrecognised kind Y behaves exactly like
the recognised kinds — it raises together with X on an odd-parity domain and
silently succeeds on an even one. -/
theorem apply_correction_kind_untested_witness :
    (apply_correction (prepare_state (StateVec_init []) 0) "Y" 0 [0] [1] = none
      ∧ apply_correction (prepare_state (StateVec_init []) 0) "X" 0 [0] [1] = none)
    ∧ apply_correction (prepare_state (StateVec_init []) 0) "Y" 0 [0] [0]
        = some (prepare_state (StateVec_init []) 0) :=
  ⟨(apply_correction_kind_untested (prepare_state (StateVec_init []) 0) "Y"
      (by decide) 0 [0] [1] (by decide) (by decide)).1 (by decide),
    (apply_correction_kind_untested (prepare_state (StateVec_init []) 0) "Y"
      (by decide) 0 [0] [0] (by decide) (by decide)).2 (by decide)⟩

/-- C4, instantiated: removing qubit 0 of the collapsed two-qubit state
(qubit 0 projected on 0, qubit 1 in plus) yields a state of norm one, and
erasing a label occurring once shortens the list by one and removes it. -/
theorem remove_qubit_spec_witness :
    normSq ((remove_qubit
        (fun v => if v 0 = 0 then Amp.ofR2 ⟨0, 1/2⟩ else 0 : QState 2) 0).getD
        fun _ => 0) = 1
    ∧ (([9] : List ℕ).erase 9).length + 1 = ([9] : List ℕ).length
    ∧ (9 : ℕ) ∉ ([9] : List ℕ).erase 9 := by
  have thm := remove_qubit_spec
    (fun v => if v 0 = 0 then Amp.ofR2 ⟨0, 1/2⟩ else 0 : QState 2) 0 0
    (fun v hv => by
      by_cases h : v 0 = 0
      · exact h
      · exact absurd (if_neg h) hv)
    (by decide)
  exact ⟨thm.2.1 _ rfl, (thm.2.2 [9] 9 (by decide)).1, (thm.2.2 [9] 9 (by decide)).2⟩

end

end MBQC
